import Mathlib

/-!
Verification of the redux-neat core (flattenHandlers, makeReducer, makeActions,
deepClone) against its natural-language specification.

Shallow embedding conventions:
- JS strings are modelled as `Str := List Char` (string concatenation is list
  append, the dot separator is the character given in a list).
- JS runtime values are modelled by the inductive `JsVal` (pure value view) and,
  where object identity and in-place mutation matter, by a heap model (`HVal`,
  `Heap`) in which objects are heap cells addressed by natural numbers.
- JS objects used as records are modelled as association lists whose insertion
  follows JS semantics: assigning to an existing key overwrites in place,
  assigning a new key appends; object spread merges with the right operand
  winning.
- Fallible operations (JSON.parse of something JSON.stringify could not
  produce, a thrown exception) are modelled with Option / Except.
-/

set_option maxHeartbeats 1000000

namespace RN

/-- A JS string: its list of characters. -/
abbrev Str := List Char

/-! ### JSON documents (the texts JSON.stringify can produce, parsed shape) -/

/-- A JSON document.  JSON numbers are restricted to integers: the repository
only ever produces numbers by integer arithmetic in the examples the claims
quantify over, and no claim depends on non-integer literals. -/
inductive Json where
  | null
  | bool (b : Bool)
  | num (n : Int)
  | str (s : Str)
  | arr (xs : List Json)
  | obj (fs : List (Str × Json))

/-! ### JS record (object-as-dictionary) operations -/

/-- JS property assignment `r[k] = v`: overwrite in place if the key exists,
otherwise append (JS objects keep insertion order for string keys). -/
def setKey {α : Type} (r : List (Str × α)) (k : Str) (v : α) : List (Str × α) :=
  if r.any (fun p => p.1 = k) then r.map (fun p => if p.1 = k then (k, v) else p)
  else r ++ [(k, v)]

/-- JS object spread `{...a, ...b}` restricted to what the source needs:
every entry of `b` is assigned into `a` in order, the right operand winning on
shared keys. -/
def mergeRec {α : Type} (a b : List (Str × α)) : List (Str × α) :=
  b.foldl (fun acc p => setKey acc p.1 p.2) a

/-- First-match association lookup, as a JS `for (const name in obj)` loop that
compares against a given key would find it. -/
def lookupA {α : Type} : List (Str × α) → Str → Option α
  | [], _ => none
  | (k, v) :: rest, key => if key = k then some v else lookupA rest key

/-- The keys of a record. -/
def keysOf {α : Type} (r : List (Str × α)) : List Str :=
  r.map (fun p => p.1)

/-- All keys distinct (guaranteed for a record that models a JS object literal,
whose keys are unique). -/
def keysNoDup {α : Type} : List (Str × α) → Bool
  | [] => true
  | (k, _) :: rest => decide (k ∉ keysOf rest) && keysNoDup rest

/-! ### Pure JS value model -/

/-- A JS runtime value, pure view.  `vfun` carries an identifier so that two
distinct functions are distinct values; `vdate` carries the timestamp of a Date
object.  `vnan`, `vinf`, `vninf` are the non-finite numbers. -/
inductive JsVal where
  | vundefined
  | vnull
  | vbool (b : Bool)
  | vnum (n : Int)
  | vnan
  | vinf
  | vninf
  | vstr (s : Str)
  | varr (xs : List JsVal)
  | vobj (fs : List (Str × JsVal))
  | vfun (id : Nat)
  | vdate (t : Int)

/-- JS truthiness: `undefined`, `null`, `false`, `0`, `NaN` and the empty
string are falsy, everything else (objects and arrays included) is truthy. -/
def truthy : JsVal → Bool
  | .vundefined => false
  | .vnull => false
  | .vbool b => b
  | .vnum n => decide (n ≠ 0)
  | .vnan => false
  | .vinf => true
  | .vninf => true
  | .vstr s => decide (s ≠ [])
  | .varr _ => true
  | .vobj _ => true
  | .vfun _ => true
  | .vdate _ => true

/-- The string JSON.stringify obtains from a Date via its toJSON method (an ISO
timestamp).  Only the fact that it is a string matters to the claims, so the
text is modelled as the printed timestamp. -/
def dateStr (t : Int) : Str := (toString t).data

mutual

/-- JSON.stringify on a JS value: `none` when stringify yields no JSON text
(a bare `undefined` or function).  Functions and `undefined` are dropped from
objects and become `null` inside arrays; non-finite numbers become `null`;
Dates become their toJSON string. -/
def stringifyV : JsVal → Option Json
  | .vundefined => none
  | .vnull => some .null
  | .vbool b => some (.bool b)
  | .vnum n => some (.num n)
  | .vnan => some .null
  | .vinf => some .null
  | .vninf => some .null
  | .vstr s => some (.str s)
  | .varr xs => some (.arr (stringifyArr xs))
  | .vobj fs => some (.obj (stringifyFields fs))
  | .vfun _ => none
  | .vdate t => some (.str (dateStr t))

/-- Array elements that stringify to nothing are emitted as `null`. -/
def stringifyArr : List JsVal → List Json
  | [] => []
  | x :: xs => ((stringifyV x).getD .null) :: stringifyArr xs

/-- Object fields that stringify to nothing are omitted. -/
def stringifyFields : List (Str × JsVal) → List (Str × Json)
  | [] => []
  | (k, x) :: fs =>
      match stringifyV x with
      | some j => (k, j) :: stringifyFields fs
      | none => stringifyFields fs

end

mutual

/-- JSON.parse of a JSON document: plain data, every object and array fresh. -/
def parseJ : Json → JsVal
  | .null => .vnull
  | .bool b => .vbool b
  | .num n => .vnum n
  | .str s => .vstr s
  | .arr xs => .varr (parseArr xs)
  | .obj fs => .vobj (parseFields fs)

def parseArr : List Json → List JsVal
  | [] => []
  | x :: xs => parseJ x :: parseArr xs

def parseFields : List (Str × Json) → List (Str × JsVal)
  | [] => []
  | (k, x) :: fs => (k, parseJ x) :: parseFields fs

end

/-- `deepClone` from src/makeActions.ts lines 36-38:
`JSON.parse(JSON.stringify(state))`.  `none` models the JSON.parse exception on
the non-text JSON.stringify result. -/
def deepClone (state : JsVal) : Option JsVal :=
  (stringifyV state).map parseJ

mutual

/-- Whether a value survives a JSON round trip unchanged: no `undefined`, no
function, no Date, no non-finite number anywhere inside. -/
def isPureJson : JsVal → Bool
  | .vundefined => false
  | .vnull => true
  | .vbool _ => true
  | .vnum _ => true
  | .vnan => false
  | .vinf => false
  | .vninf => false
  | .vstr _ => true
  | .varr xs => isPureArr xs
  | .vobj fs => isPureFields fs
  | .vfun _ => false
  | .vdate _ => false

def isPureArr : List JsVal → Bool
  | [] => true
  | x :: xs => isPureJson x && isPureArr xs

def isPureFields : List (Str × JsVal) → Bool
  | [] => true
  | (_, x) :: fs => isPureJson x && isPureFields fs

end

/-! ### The transition executor: makeReducer (pure value view)

A leaf mutator receives a fresh unaliased deep clone of the state, so its whole
observable behavior is a pure function of that clone's content: the content of
its argument after the call (capturing in-place mutation) together with its
return value (`none` models returning `undefined` / no return). -/

/-- Outcome of calling a leaf mutator on (a clone of) the state. -/
structure MutOut where
  /-- Content of the argument object after the call (the possibly mutated clone). -/
  final : JsVal
  /-- The mutator's return value; `none` when it returns `undefined` or nothing. -/
  ret : Option JsVal

/-- A leaf mutator in the pure value view. -/
def Mut : Type := JsVal → List JsVal → MutOut

/-- A dispatched redux action `{type, args}` as the generated action creators
produce it. -/
structure ActionMsg where
  type : Str
  args : List JsVal

/-- JS `x || y`: the first operand if truthy, else the second.  `x` here is the
mutator's return value (`none` = `undefined`). -/
def jsOr (ret : Option JsVal) (fallback : JsVal) : JsVal :=
  match ret with
  | some r => if truthy r then r else fallback
  | none => fallback

/-- The loop body of the reducer returned by `makeReducer` (src/makeReducer.ts
lines 7-14): find the first handler whose name equals `action.type`; on a match
deep-clone the state, call the handler with the clone and the action args, and
return `handler(clone, ...args) || clone`; with no match return the state
unchanged.  `.error` models the propagated JSON.parse exception when the clone
fails. -/
def reduceGo (handlers : List (Str × Mut)) (state : JsVal) (action : ActionMsg) :
    Except Str JsVal :=
  match handlers with
  | [] => .ok state
  | (name, m) :: rest =>
      if action.type = name then
        match deepClone state with
        | none => .error ['c','l','o','n','e']
        | some c =>
            let out := m c action.args
            .ok (jsOr out.ret out.final)
      else reduceGo rest state action

/-- `makeReducer` from src/makeReducer.ts lines 5-16: the produced reducer,
with `none` for the absent redux state (in which case the default
`state = initialState` applies). -/
def makeReducer (initialState : JsVal) (handlers : List (Str × Mut))
    (state : Option JsVal) (action : ActionMsg) : Except Str JsVal :=
  reduceGo handlers (state.getD initialState) action

/-! ### Mutator trees and the path flattener -/

/-- A nested tree of handlers: each key holds either a leaf handler or a
sub-tree (the runtime discriminates with `isFunction`).  The leaf type is a
parameter: the flattener and the action builder never call the leaves. -/
inductive FnTree (α : Type) where
  | leaf (f : α)
  | node (children : List (Str × FnTree α))

/-- Number of leaf handlers in one level's worth of sub-trees. -/
def countLeaves {α : Type} : List (Str × FnTree α) → Nat
  | [] => 0
  | (_, .leaf _) :: rest => 1 + countLeaves rest
  | (_, .node ch) :: rest => countLeaves ch + countLeaves rest

/-- The loop of `flattenHandlers` (src/flattenHandlers.ts lines 5-13) with its
accumulated `result` record explicit: a leaf is assigned at key
`prefix + name`, a sub-tree is flattened with `prefix + name + '.'` and spread
into the accumulator. -/
def flattenAux {α : Type} (acc : List (Str × α)) :
    List (Str × FnTree α) → Str → List (Str × α)
  | [], _ => acc
  | (name, .leaf f) :: rest, pre => flattenAux (setKey acc (pre ++ name) f) rest pre
  | (name, .node ch) :: rest, pre =>
      flattenAux (mergeRec acc (flattenAux [] ch (pre ++ name ++ ['.']))) rest pre

/-- `flattenHandlers` from src/flattenHandlers.ts lines 4-15, at the default
empty prefix. -/
def flattenHandlers {α : Type} (fns : List (Str × FnTree α)) : List (Str × α) :=
  flattenAux [] fns []

/-- Spec-side description of the flattened mapping ("exactly one entry per
leaf, keyed by that leaf's full dot-joined path from the root, no entry for
intermediate nodes"), written from the spec's words for comparison with
`flattenHandlers`. -/
def leafEntries {α : Type} : List (Str × FnTree α) → Str → List (Str × α)
  | [], _ => []
  | (name, .leaf f) :: rest, pre => (pre ++ name, f) :: leafEntries rest pre
  | (name, .node ch) :: rest, pre =>
      leafEntries ch (pre ++ name ++ ['.']) ++ leafEntries rest pre

/-- Well-formedness of a mutator tree as a JS object literal with
separator-free keys: at every level the keys are distinct (JS objects cannot
repeat a key) and no key contains the `.` character. -/
def goodTree {α : Type} : List (Str × FnTree α) → Bool
  | [] => true
  | (name, t) :: rest =>
      decide ('.' ∉ name) && decide (name ∉ keysOf rest) &&
        (match t with
         | .leaf _ => true
         | .node ch => goodTree ch) &&
        goodTree rest

/-! ### The invocation tree builder: makeActions -/

/-- The tree `makeActions` builds: every leaf handler is replaced by a handle
closure that captured the dot-joined path `prefix + name`; every sub-tree is
rebuilt recursively. -/
inductive ActionsTree where
  | handle (path : Str)
  | node (children : List (Str × ActionsTree))

/-- `makeActions` from src/makeActions.ts lines 5-15, with the store dispatch
capability factored out: the handle at a leaf is the closure
`(...args) => store.dispatch({type: prefix + name, args})`, represented by the
captured string `prefix + name`. -/
def makeActions {α : Type} : List (Str × FnTree α) → Str → List (Str × ActionsTree)
  | [], _ => []
  | (name, .leaf _) :: rest, pre =>
      (name, .handle (pre ++ name)) :: makeActions rest pre
  | (name, .node ch) :: rest, pre =>
      (name, .node (makeActions ch (pre ++ name ++ ['.']))) :: makeActions rest pre

/-- Calling the handle found by walking the invocation tree along a key path
(`invocations.a.b.c(...args)`): the dispatched action, or `none` when the walk
does not end at a handle. -/
def callAt (acts : List (Str × ActionsTree)) (ks : List Str) (args : List JsVal) :
    Option ActionMsg :=
  match ks with
  | [] => none
  | [k] =>
      match lookupA acts k with
      | some (.handle t) => some ⟨t, args⟩
      | _ => none
  | k :: ks =>
      match lookupA acts k with
      | some (.node ch) => callAt ch ks args
      | _ => none

/-- The shape of a tree: keys and nesting with the leaf payloads erased. -/
inductive Shape where
  | leaf
  | node (children : List (Str × Shape))

def shapeF {α : Type} : List (Str × FnTree α) → List (Str × Shape)
  | [] => []
  | (name, .leaf _) :: rest => (name, .leaf) :: shapeF rest
  | (name, .node ch) :: rest => (name, .node (shapeF ch)) :: shapeF rest

def shapeA : List (Str × ActionsTree) → List (Str × Shape)
  | [] => []
  | (name, .handle _) :: rest => (name, .leaf) :: shapeA rest
  | (name, .node ch) :: rest => (name, .node (shapeA ch)) :: shapeA rest

/-- Dot-joined key paths of the handles of an invocation tree, recomputed from
the keys alone (spec-side: the key paths of the tree's leaves). -/
def actionPaths : List (Str × ActionsTree) → Str → List Str
  | [], _ => []
  | (name, .handle _) :: rest, pre => (pre ++ name) :: actionPaths rest pre
  | (name, .node ch) :: rest, pre =>
      actionPaths ch (pre ++ name ++ ['.']) ++ actionPaths rest pre

/-- Dot-joining a nonempty key path, as nested member access spells it. -/
def dotJoin : List Str → Str
  | [] => []
  | [k] => k
  | k :: ks => k ++ ['.'] ++ dotJoin ks

/-! ### Heap model

Where the claims are about object identity and in-place mutation (the executor
never mutates `currentValue`; a throwing mutator leaves the container's value
untouched), the pure value view is not expressive enough, so the same reducer
is embedded a second time over an explicit heap.  Objects are heap cells;
a value is a primitive or a reference.  JS arrays are objects with index keys,
so a single object cell type suffices for the states these claims range
over. -/

/-- Heap address (object identity). -/
abbrev Addr := Nat

/-- A JS value in the heap view: a primitive or a reference to an object. -/
inductive HVal where
  | hnull
  | hbool (b : Bool)
  | hnum (n : Int)
  | hstr (s : Str)
  | href (a : Addr)

/-- An object cell: its named fields. -/
abbrev HObj := List (Str × HVal)

/-- The heap: allocated cells by address. -/
abbrev Heap := List (Addr × HObj)

def lookupH : Heap → Addr → Option HObj
  | [], _ => none
  | (b, o) :: rest, a => if a = b then some o else lookupH rest a

/-- Overwrite the cell at an (allocated) address. -/
def updateH (h : Heap) (a : Addr) (o : HObj) : Heap :=
  h.map (fun p => if p.1 = a then (a, o) else p)

/-- One past the largest allocated address: every fresh allocation happens at
or above this bound. -/
def nextAddr (h : Heap) : Nat :=
  h.foldr (fun p n => max (p.1 + 1) n) 0

/-- Apply a fallible reader to every field value, keeping the keys. -/
def fieldsMap (f : HVal → Option Json) : List (Str × HVal) → Option (List (Str × Json))
  | [] => some []
  | (k, v) :: fs =>
      match f v, fieldsMap f fs with
      | some j, some js => some ((k, j) :: js)
      | _, _ => none

/-- JSON.stringify in the heap view, restricted to the object-graph values the
identity claims range over: read the value tree reachable from a value.  Fuel
bounds the dereferencing depth (stringify throws on cyclic structures); `none`
also covers a dangling reference, which a well-formed heap does not contain. -/
def readout (fuel : Nat) (h : Heap) : HVal → Option Json
  | .hnull => some .null
  | .hbool b => some (.bool b)
  | .hnum n => some (.num n)
  | .hstr s => some (.str s)
  | .href a =>
      if hf : fuel = 0 then none
      else
        match lookupH h a with
        | none => none
        | some o => (fieldsMap (readout (fuel - 1) h) o).map .obj
  termination_by v => (fuel, 0)
  decreasing_by
    simp only [Prod.lex_iff]
    omega

mutual

/-- JSON.parse in the heap view: rebuild the document, allocating a fresh cell
for every object (and array, encoded as an object with index keys:
`arrKeys`). -/
def allocJ : Json → Heap → HVal × Heap
  | .null, h => (.hnull, h)
  | .bool b, h => (.hbool b, h)
  | .num n, h => (.hnum n, h)
  | .str s, h => (.hstr s, h)
  | .arr xs, h =>
      let (fs, h1) := allocArr xs 0 h
      (.href (nextAddr h1), h1 ++ [(nextAddr h1, fs)])
  | .obj fs, h =>
      let (fs1, h1) := allocFields fs h
      (.href (nextAddr h1), h1 ++ [(nextAddr h1, fs1)])

def allocArr : List Json → Nat → Heap → HObj × Heap
  | [], _, h => ([], h)
  | x :: xs, i, h =>
      let (v, h1) := allocJ x h
      let (fs, h2) := allocArr xs (i + 1) h1
      (((toString i).data, v) :: fs, h2)

def allocFields : List (Str × Json) → Heap → HObj × Heap
  | [], h => ([], h)
  | (k, x) :: fs, h =>
      let (v, h1) := allocJ x h
      let (fs1, h2) := allocFields fs h1
      ((k, v) :: fs1, h2)

end

/-- `deepClone` (JSON.parse of JSON.stringify) in the heap view: every part of
the copy is freshly allocated. -/
def deepCloneH (fuel : Nat) (h : Heap) (v : HVal) : Option (HVal × Heap) :=
  (readout fuel h v).map (fun j => allocJ j h)

/-- A leaf mutator in the heap view: given the heap, its state argument and the
call arguments it yields the heap after the call (it may have mutated cells)
and either a thrown exception or its return value (`none` = `undefined`). -/
def HMut : Type := Heap → HVal → List HVal → Heap × Except Str (Option HVal)

/-- A dispatched action in the heap view. -/
structure ActionMsgH where
  type : Str
  args : List HVal

/-- JS `x || y` in the heap view. -/
def truthyH : HVal → Bool
  | .hnull => false
  | .hbool b => b
  | .hnum n => decide (n ≠ 0)
  | .hstr s => decide (s ≠ [])
  | .href _ => true

def jsOrH (ret : Option HVal) (fallback : HVal) : HVal :=
  match ret with
  | some r => if truthyH r then r else fallback
  | none => fallback

/-- The reducer of `makeReducer` (src/makeReducer.ts lines 6-15) in the heap
view: on the first handler whose name equals `action.type`, clone the state,
call the handler on the clone, and produce `handler(clone, ...args) || clone`;
exceptions (from JSON or from the handler) propagate with the heap as the call
left it. -/
def reduceH (fuel : Nat) (handlers : List (Str × HMut)) (h : Heap) (state : HVal)
    (action : ActionMsgH) : Heap × Except Str HVal :=
  match handlers with
  | [] => (h, .ok state)
  | (name, m) :: rest =>
      if action.type = name then
        match deepCloneH fuel h state with
        | none => (h, .error ['c','l','o','n','e'])
        | some (c, h1) =>
            match m h1 c action.args with
            | (h2, .error e) => (h2, .error e)
            | (h2, .ok ret) => (h2, .ok (jsOrH ret c))
      else reduceH fuel rest h state action

/-- The external single-writer state container (the redux store), modelled from
its interface in spec section 6: it holds the current value, and `submit` runs
the transition function on it.  When the transition function throws, the
exception propagates to the caller and the stored value is not replaced. -/
structure ContainerH where
  heap : Heap
  val : HVal

/-- `store.dispatch` with the reducer installed: on success the container holds
the reducer's result, on a thrown exception the old value stays installed and
the exception reaches the caller. -/
def submitH (fuel : Nat) (handlers : List (Str × HMut)) (cont : ContainerH)
    (action : ActionMsgH) : ContainerH × Except Str Unit :=
  match reduceH fuel handlers cont.heap cont.val action with
  | (h1, .ok v1) => (⟨h1, v1⟩, .ok ())
  | (h1, .error e) => (⟨h1, cont.val⟩, .error e)

/-- Addresses reachable from a value through the heap. -/
inductive Reach (h : Heap) : HVal → Addr → Prop where
  | here (a : Addr) : Reach h (.href a) a
  | through (a : Addr) (o : HObj) (k : Str) (w : HVal) (b : Addr)
      (hl : lookupH h a = some o) (hm : (k, w) ∈ o) (hr : Reach h w b) :
      Reach h (.href a) b

/-- A mutator that touches memory only through its state argument: every
allocated cell not reachable from that argument is left exactly as it was.
This is what a JS handler can do: the clone is the only object it receives. -/
def MutFrame (m : HMut) : Prop :=
  ∀ h c args a, (lookupH h a).isSome → ¬ Reach h c a →
    lookupH (m h c args).1 a = lookupH h a

/-- Every reference stored in any cell of the heap is itself allocated. -/
def wfHeap (h : Heap) : Bool :=
  h.all (fun p => p.2.all (fun f =>
    match f.2 with
    | .href b => (lookupH h b).isSome
    | _ => true))

/-! ### Concrete keys and leaf mutators used by the claims -/

def valueKey : Str := ['v','a','l','u','e']

def resetKey : Str := ['r','e','s','e','t']

/-- The field read `s.k`: `undefined` when absent or when `s` is not an
object. -/
def fieldOf (s : JsVal) (k : Str) : JsVal :=
  match s with
  | .vobj fs => (lookupA fs k).getD .vundefined
  | _ => .vundefined

/-- The field write `s.k = v` on an object; on a primitive the assignment is
silently ignored (non-strict JS). -/
def setField (s : JsVal) (k : Str) (v : JsVal) : JsVal :=
  match s with
  | .vobj fs => .vobj (setKey fs k v)
  | _ => s

/-- JS `x + 1` for the values these claims exercise: integer increment, `NaN`
for a non-number (`undefined + 1`, `NaN + 1`, ...). -/
def addOneJs : JsVal → JsVal
  | .vnum n => .vnum (n + 1)
  | _ => .vnan

/-- The repository's own test handler `reset: (_: number) => 0`
(src/flattenHandlers.test.ts): returns the number 0, mutates nothing. -/
def resetMut : Mut := fun s _ => ⟨s, some (.vnum 0)⟩

/-- The spec's `s => ({value: s.value + 1})`: returns a brand-new object,
mutates nothing. -/
def retIncMut : Mut := fun s _ => ⟨s, some (.vobj [(valueKey, addOneJs (fieldOf s valueKey))])⟩

/-- The spec's `s => { s.value++ }`: mutates its argument in place, returns
nothing. -/
def mutIncMut : Mut := fun s _ => ⟨setField s valueKey (addOneJs (fieldOf s valueKey)), none⟩

/-- The no-op mutator `s => {}`: mutates nothing, returns nothing. -/
def noopMut : Mut := fun s _ => ⟨s, none⟩

/-- The state `{value: n}`. -/
def valueObj (n : Int) : JsVal := .vobj [(valueKey, .vnum n)]

/-! ### Heap-side verification predicates and concrete heap mutators -/

/-- Every reference in the value points at or above `n`. -/
def RefsHigh (n : Nat) (v : HVal) : Prop := ∀ a, v = .href a → n ≤ a

/-- Every reference in the object's fields points at or above `n`. -/
def ObjRefsHigh (n : Nat) (o : HObj) : Prop := ∀ p ∈ o, RefsHigh n p.2

/-- Every reference in the value points strictly below `n`. -/
def RefsLow (n : Nat) (v : HVal) : Prop := ∀ a, v = .href a → a < n

/-- Every reference in the object's fields points strictly below `n`. -/
def ObjRefsLow (n : Nat) (o : HObj) : Prop := ∀ p ∈ o, RefsLow n p.2

/-- Objects at addresses below `n` only reference addresses below `n`. -/
def LowOK (h : Heap) (n : Nat) : Prop :=
  ∀ a o, lookupH h a = some o → a < n → ObjRefsLow n o

/-- Objects at addresses at or above `n` only reference addresses at or above
`n`. -/
def HighOK (h : Heap) (n : Nat) : Prop :=
  ∀ a o, lookupH h a = some o → n ≤ a → ObjRefsHigh n o

/-! ### Concrete heap mutators for the identity claims -/

def incKey : Str := ['i','n','c']

def boomKey : Str := ['b','o','o','m']

/-- `inc: s => { s.value++ }` in the heap view: dereference the argument,
increment its numeric value field in place, return nothing. -/
def incHMut : HMut := fun h s _ =>
  match s with
  | .href a =>
      match lookupH h a with
      | some o =>
          match lookupA o valueKey with
          | some (.hnum n) => (updateH h a (setKey o valueKey (.hnum (n + 1))), .ok none)
          | _ => (h, .ok none)
      | none => (h, .ok none)
  | _ => (h, .ok none)

/-- A mutator that scribbles on its argument and then throws. -/
def badIncMut : HMut := fun h s _ =>
  match s with
  | .href a =>
      match lookupH h a with
      | some o => (updateH h a (setKey o valueKey (.hnum 99)), .error ['b','o','o','m'])
      | none => (h, .error ['b','o','o','m'])
  | _ => (h, .error ['b','o','o','m'])


/-! ## Lemmas: records and the path flattener -/

/-- A key is in a flattened-entry record iff some leaf put it there; the shape
of such keys: the prefix, then a level key, then either nothing or a
dot-started remainder. -/
def KeyExt (pre name k : Str) : Prop :=
  ∃ sfx, k = pre ++ name ++ sfx ∧ (sfx = [] ∨ ∃ w, sfx = '.' :: w)

theorem keyExt_self (pre name : Str) : KeyExt pre name (pre ++ name) :=
  ⟨[], by simp, Or.inl rfl⟩

theorem keyExt_extend {pre name n1 k : Str}
    (h : KeyExt (pre ++ name ++ ['.']) n1 k) : KeyExt pre name k := by
  obtain ⟨sfx, rfl, _⟩ := h
  exact ⟨'.' :: (n1 ++ sfx), by simp, Or.inr ⟨_, rfl⟩⟩

/-- Dot-joined paths separate: a dot-free head key is recovered uniquely from
the joined string. -/
theorem dotfree_ext_inj : ∀ {n1 : Str} {n2 s1 s2 : Str}, '.' ∉ n1 → '.' ∉ n2 →
    (s1 = [] ∨ ∃ w, s1 = '.' :: w) → (s2 = [] ∨ ∃ w, s2 = '.' :: w) →
    n1 ++ s1 = n2 ++ s2 → n1 = n2 := by
  intro n1
  induction n1 with
  | nil =>
      intro n2 s1 s2 h1 h2 hs1 hs2 he
      cases n2 with
      | nil => rfl
      | cons d m2 =>
          exfalso
          rcases hs1 with rfl | ⟨w, rfl⟩
          · exact absurd he.symm (by simp)
          · have hd : d = '.' := by
              have h3 := he.symm
              simp at h3
              exact h3.1
            exact h2 (by simp [hd])
  | cons c m1 ih =>
      intro n2 s1 s2 h1 h2 hs1 hs2 he
      cases n2 with
      | nil =>
          exfalso
          rcases hs2 with rfl | ⟨w, rfl⟩
          · exact absurd he (by simp)
          · have hc : c = '.' := by
              simp at he
              exact he.1
            exact h1 (by simp [hc])
      | cons d m2 =>
          simp only [List.cons_append, List.cons.injEq] at he
          have := ih (fun hm => h1 (List.mem_cons_of_mem _ hm))
            (fun hm => h2 (List.mem_cons_of_mem _ hm)) hs1 hs2 he.2
          simp [he.1, this]

/-- Two key extensions of the same prefix agree on the level key when both
level keys are dot-free. -/
theorem keyExt_names_eq {pre n1 n2 k : Str} (d1 : '.' ∉ n1) (d2 : '.' ∉ n2)
    (h1 : KeyExt pre n1 k) (h2 : KeyExt pre n2 k) : n1 = n2 := by
  obtain ⟨s1, rfl, f1⟩ := h1
  obtain ⟨s2, he, f2⟩ := h2
  have he1 : n1 ++ s1 = n2 ++ s2 := by
    have := he
    simp only [List.append_assoc] at this
    exact List.append_cancel_left this
  exact dotfree_ext_inj d1 d2 f1 f2 he1

theorem keysOf_cons {α : Type} (k : Str) (v : α) (b : List (Str × α)) :
    keysOf ((k, v) :: b) = k :: keysOf b := rfl

/-- The well-formedness facts `goodTree` gives at a cons cell. -/
theorem goodTree_cons {α : Type} {k : Str} {t : FnTree α}
    {rest : List (Str × FnTree α)} (hg : goodTree ((k, t) :: rest) = true) :
    '.' ∉ k ∧ k ∉ keysOf rest ∧ goodTree rest = true := by
  cases t with
  | leaf f =>
      simp only [goodTree, Bool.and_eq_true, decide_eq_true_eq] at hg
      exact ⟨hg.1.1.1, hg.1.1.2, hg.2⟩
  | node ch =>
      simp only [goodTree, Bool.and_eq_true, decide_eq_true_eq] at hg
      exact ⟨hg.1.1.1, hg.1.1.2, hg.2⟩

/-- `goodTree` of a node key's sub-tree. -/
theorem goodTree_sub {α : Type} {k : Str} {ch rest : List (Str × FnTree α)}
    (hg : goodTree ((k, .node ch) :: rest) = true) : goodTree ch = true := by
  simp only [goodTree, Bool.and_eq_true, decide_eq_true_eq] at hg
  exact hg.1.2

/-- All keys of a good tree level are dot-free. -/
theorem dotfree_of_good {α : Type} : ∀ {fns : List (Str × FnTree α)},
    goodTree fns = true → ∀ name ∈ keysOf fns, '.' ∉ name := by
  intro fns
  induction fns with
  | nil => intro _ name hm; simp [keysOf] at hm
  | cons p rest ih =>
      obtain ⟨k, t⟩ := p
      intro hg name hm
      obtain ⟨hdk, _, hgr⟩ := goodTree_cons hg
      rw [keysOf_cons] at hm
      rcases List.mem_cons.mp hm with rfl | hm1
      · exact hdk
      · exact ih hgr name hm1

theorem setKey_of_not_mem {α : Type} {r : List (Str × α)} {k : Str} {v : α}
    (h : k ∉ keysOf r) : setKey r k v = r ++ [(k, v)] := by
  have hany : r.any (fun p => p.1 = k) = false := by
    rw [List.any_eq_false]
    intro p hp
    simp only [decide_eq_true_eq]
    intro hk
    exact h (hk ▸ List.mem_map_of_mem _ hp)
  simp [setKey, hany]

theorem keysOf_append {α : Type} (a b : List (Str × α)) :
    keysOf (a ++ b) = keysOf a ++ keysOf b :=
  List.map_append _ _ _

theorem mergeRec_of_disjoint {α : Type} : ∀ {b a : List (Str × α)},
    (keysOf b).Nodup → (∀ k ∈ keysOf b, k ∉ keysOf a) → mergeRec a b = a ++ b := by
  intro b
  induction b with
  | nil => intro a _ _; simp [mergeRec]
  | cons p b ih =>
      obtain ⟨k, v⟩ := p
      intro a hnd hd
      have hk : k ∉ keysOf a :=
        hd k (by rw [keysOf_cons]; exact List.mem_cons_self _ _)
      have hnd1 : k ∉ keysOf b ∧ (keysOf b).Nodup :=
        List.nodup_cons.mp (by rw [keysOf_cons] at hnd; exact hnd)
      have hstep : mergeRec a ((k, v) :: b) = mergeRec (setKey a k v) b := rfl
      have hdisj : ∀ k1 ∈ keysOf b, k1 ∉ keysOf (a ++ [(k, v)]) := by
        intro k1 hk1
        have hne : k1 ≠ k := fun he => hnd1.1 (he ▸ hk1)
        have hka : k1 ∉ keysOf a :=
          hd k1 (by rw [keysOf_cons]; exact List.mem_cons_of_mem _ hk1)
        rw [keysOf_append]
        intro hmem
        rcases List.mem_append.mp hmem with hmem1 | hmem1
        · exact hka hmem1
        · exact hne (List.mem_singleton.mp hmem1)
      rw [hstep, setKey_of_not_mem hk, ih hnd1.2 hdisj, List.append_assoc]
      rfl

/-- Every key of the flattened-entries list extends the prefix with one of the
level's keys. -/
theorem keyExt_of_mem_leafEntries {α : Type} :
    ∀ (fns : List (Str × FnTree α)) (pre k : Str),
      k ∈ keysOf (leafEntries fns pre) → ∃ name, name ∈ keysOf fns ∧ KeyExt pre name k := by
  intro fns pre
  induction fns, pre using leafEntries.induct with
  | case1 pre => intro k hk; simp [leafEntries, keysOf] at hk
  | case2 name f rest pre ih =>
      intro k hk
      simp only [leafEntries, keysOf_cons] at hk
      rcases List.mem_cons.mp hk with rfl | hk1
      · exact ⟨name, by rw [keysOf_cons]; exact List.mem_cons_self _ _, keyExt_self pre name⟩
      · obtain ⟨n1, hn1, he⟩ := ih k hk1
        exact ⟨n1, by rw [keysOf_cons]; exact List.mem_cons_of_mem _ hn1, he⟩
  | case3 name ch rest pre ih1 ih2 =>
      intro k hk
      simp only [leafEntries, keysOf_append] at hk
      rcases List.mem_append.mp hk with hk1 | hk1
      · obtain ⟨n1, hn1, he⟩ := ih1 k hk1
        exact ⟨name, by rw [keysOf_cons]; exact List.mem_cons_self _ _, keyExt_extend he⟩
      · obtain ⟨n1, hn1, he⟩ := ih2 k hk1
        exact ⟨n1, by rw [keysOf_cons]; exact List.mem_cons_of_mem _ hn1, he⟩

/-- On a good tree the flattened entries have pairwise distinct keys: distinct
leaves produce distinct paths. -/
theorem keys_leafEntries_nodup {α : Type} :
    ∀ (fns : List (Str × FnTree α)) (pre : Str),
      goodTree fns = true → (keysOf (leafEntries fns pre)).Nodup := by
  intro fns pre
  induction fns, pre using leafEntries.induct with
  | case1 pre => intro _; simp [leafEntries, keysOf]
  | case2 name f rest pre ih =>
      intro hg
      obtain ⟨hdk, hnm, hgr⟩ := goodTree_cons hg
      simp only [leafEntries, keysOf_cons]
      refine List.nodup_cons.mpr ⟨?_, ih hgr⟩
      intro hmem
      obtain ⟨n1, hn1, he⟩ := keyExt_of_mem_leafEntries rest pre _ hmem
      have hne : name = n1 :=
        keyExt_names_eq hdk (dotfree_of_good hgr n1 hn1) (keyExt_self pre name) he
      exact hnm (hne ▸ hn1)
  | case3 name ch rest pre ih1 ih2 =>
      intro hg
      obtain ⟨hdk, hnm, hgr⟩ := goodTree_cons hg
      have hgc := goodTree_sub hg
      simp only [leafEntries, keysOf_append]
      refine List.Nodup.append (ih1 hgc) (ih2 hgr) ?_
      intro k hk1 hk2
      obtain ⟨n1, hn1, he1⟩ := keyExt_of_mem_leafEntries ch _ k hk1
      obtain ⟨n2, hn2, he2⟩ := keyExt_of_mem_leafEntries rest pre k hk2
      have hne : name = n2 :=
        keyExt_names_eq hdk (dotfree_of_good hgr n2 hn2) (keyExt_extend he1) he2
      exact hnm (hne ▸ hn2)

/-- One flattened entry per leaf. -/
theorem length_leafEntries {α : Type} :
    ∀ (fns : List (Str × FnTree α)) (pre : Str),
      (leafEntries fns pre).length = countLeaves fns := by
  intro fns pre
  induction fns, pre using leafEntries.induct with
  | case1 pre => simp [leafEntries, countLeaves]
  | case2 name f rest pre ih =>
      simp only [leafEntries, List.length_cons, countLeaves, ih]
      omega
  | case3 name ch rest pre ih1 ih2 =>
      simp only [leafEntries, List.length_append, countLeaves, ih1, ih2]

/-- Central lemma: on a good tree the flattener's loop performs only fresh
insertions, so it appends exactly the leaf entries to its accumulator. -/
theorem flattenAux_eq_append {α : Type} :
    ∀ (acc : List (Str × α)) (fns : List (Str × FnTree α)) (pre : Str),
      goodTree fns = true →
      (∀ k ∈ keysOf acc, ∀ name ∈ keysOf fns, ¬ KeyExt pre name k) →
      flattenAux acc fns pre = acc ++ leafEntries fns pre := by
  intro acc fns pre
  induction acc, fns, pre using flattenAux.induct with
  | case1 acc pre => intro _ _; simp [flattenAux, leafEntries]
  | case2 acc name f rest pre ih =>
      intro hg hdisj
      obtain ⟨hdk, hnm, hgr⟩ := goodTree_cons hg
      have hfresh : (pre ++ name) ∉ keysOf acc := fun hmem =>
        hdisj _ hmem name (by rw [keysOf_cons]; exact List.mem_cons_self _ _)
          (keyExt_self pre name)
      have hdisj2 : ∀ k ∈ keysOf (setKey acc (pre ++ name) f),
          ∀ n1 ∈ keysOf rest, ¬ KeyExt pre n1 k := by
        rw [setKey_of_not_mem hfresh, keysOf_append]
        intro k hk n1 hn1 he
        rcases List.mem_append.mp hk with hk1 | hk1
        · exact hdisj k hk1 n1
            (by rw [keysOf_cons]; exact List.mem_cons_of_mem _ hn1) he
        · have hkk : k = pre ++ name := List.mem_singleton.mp hk1
          have hne : name = n1 :=
            keyExt_names_eq hdk (dotfree_of_good hgr n1 hn1)
              (hkk ▸ keyExt_self pre name) he
          exact hnm (hne ▸ hn1)
      simp only [flattenAux]
      rw [ih hgr hdisj2, setKey_of_not_mem hfresh, List.append_assoc]
      simp only [leafEntries]
      rfl
  | case3 acc name ch rest pre ih1 ih2 =>
      intro hg hdisj
      obtain ⟨hdk, hnm, hgr⟩ := goodTree_cons hg
      have hgc := goodTree_sub hg
      have hinner : flattenAux [] ch (pre ++ name ++ ['.']) =
          leafEntries ch (pre ++ name ++ ['.']) := by
        have h0 := ih1 hgc (by intro k hk; simp [keysOf] at hk)
        simpa using h0
      have hmerge : mergeRec acc (leafEntries ch (pre ++ name ++ ['.'])) =
          acc ++ leafEntries ch (pre ++ name ++ ['.']) := by
        refine mergeRec_of_disjoint (keys_leafEntries_nodup ch _ hgc) ?_
        intro k hk hka
        obtain ⟨n1, hn1, he⟩ := keyExt_of_mem_leafEntries ch _ k hk
        exact hdisj k hka name (by rw [keysOf_cons]; exact List.mem_cons_self _ _)
          (keyExt_extend he)
      have hacc : mergeRec acc (flattenAux [] ch (pre ++ name ++ ['.'])) =
          acc ++ leafEntries ch (pre ++ name ++ ['.']) := by
        rw [hinner, hmerge]
      have hdisj2 : ∀ k ∈ keysOf (mergeRec acc (flattenAux [] ch (pre ++ name ++ ['.']))),
          ∀ n2 ∈ keysOf rest, ¬ KeyExt pre n2 k := by
        rw [hacc, keysOf_append]
        intro k hk n2 hn2 he
        rcases List.mem_append.mp hk with hk1 | hk1
        · exact hdisj k hk1 n2
            (by rw [keysOf_cons]; exact List.mem_cons_of_mem _ hn2) he
        · obtain ⟨n1, hn1, he1⟩ := keyExt_of_mem_leafEntries ch _ k hk1
          have hne : name = n2 :=
            keyExt_names_eq hdk (dotfree_of_good hgr n2 hn2) (keyExt_extend he1) he
          exact hnm (hne ▸ hn2)
      simp only [flattenAux]
      rw [ih2 hgr hdisj2, hacc, List.append_assoc]
      simp only [leafEntries]

/-! ## Claim theorems -/

/-- C1: the claim says the transition function returns the mutator's return
value whenever it is not `undefined`, so that a returned falsy value such as 0
becomes the next state.  The code computes `handler(clone, ...args) || clone`,
which tests truthiness, not presence: with the repository's own test handler
`reset: (_: number) => 0` and current state 5, the produced transition function
returns the cloned previous state 5 and not the returned 0 the claim (and the
`State | undefined | void` handler contract) requires. -/
theorem makeReducer_discards_defined_falsy_return :
    makeReducer (.vnum 0) [(resetKey, resetMut)] (some (.vnum 5)) ⟨resetKey, []⟩ =
        .ok (.vnum 5) ∧
      makeReducer (.vnum 0) [(resetKey, resetMut)] (some (.vnum 5)) ⟨resetKey, []⟩ ≠
        .ok (.vnum 0) := by
  constructor
  · show reduceGo _ _ _ = _
    simp [reduceGo, deepClone, stringifyV, parseJ, resetMut, jsOr, truthy]
  · show reduceGo _ _ _ ≠ _
    simp [reduceGo, deepClone, stringifyV, parseJ, resetMut, jsOr, truthy]

/-- C5: a transition request whose path matches no entry of the flattened
mapping returns the current state unchanged and raises nothing: the reducer
falls through its loop and returns its input. -/
theorem makeReducer_unmatched_is_noop (init state : JsVal)
    (handlers : List (Str × Mut)) (a : ActionMsg)
    (hno : ∀ p ∈ handlers, a.type ≠ p.1) :
    makeReducer init handlers (some state) a = .ok state := by
  show reduceGo handlers state a = .ok state
  induction handlers with
  | nil => rfl
  | cons p rest ih =>
      obtain ⟨k, m⟩ := p
      have hk : a.type ≠ k := hno (k, m) (List.mem_cons_self _ _)
      simpa [reduceGo, hk] using ih (fun q hq => hno q (List.mem_cons_of_mem _ hq))

/-- Witness for C5 at a concrete input: the request `("missing", [])` against
the mapping `{reset: resetMut}` leaves the state 3 untouched. -/
theorem makeReducer_unmatched_is_noop_witness :
    makeReducer (.vnum 0) [(resetKey, resetMut)] (some (.vnum 3))
      ⟨['m','i','s','s','i','n','g'], []⟩ = .ok (.vnum 3) :=
  makeReducer_unmatched_is_noop (.vnum 0) (.vnum 3) [(resetKey, resetMut)]
    ⟨['m','i','s','s','i','n','g'], []⟩ (by decide)

/-- C8: on a state `{value: n}`, the mutator `s => ({value: s.value + 1})`
(returns a brand-new value) and the mutator `s => { s.value++ }` (mutates its
argument, returns nothing), registered at the same path, give the same next
state for every transition request at that path. -/
theorem makeReducer_return_and_mutate_agree (init : JsVal) (p : Str) (n : Int)
    (args : List JsVal) :
    makeReducer init [(p, retIncMut)] (some (valueObj n)) ⟨p, args⟩ =
      makeReducer init [(p, mutIncMut)] (some (valueObj n)) ⟨p, args⟩ := by
  show reduceGo _ _ _ = reduceGo _ _ _
  simp [reduceGo, deepClone, stringifyV, stringifyFields, parseJ, parseFields,
    valueObj, retIncMut, mutIncMut, jsOr, truthy, fieldOf, setField, addOneJs,
    lookupA, setKey]

/-- Helper for C9: on a level of nothing but leaves the flattener's loop only
appends fresh entries. -/
theorem flattenAux_all_leaves {α : Type} :
    ∀ (flat acc : List (Str × α)) (pre : Str),
      keysNoDup flat = true →
      (∀ k ∈ keysOf flat, (pre ++ k) ∉ keysOf acc) →
      flattenAux acc (flat.map (fun p => (p.1, FnTree.leaf p.2))) pre =
        acc ++ flat.map (fun p => (pre ++ p.1, p.2)) := by
  intro flat
  induction flat with
  | nil => intro acc pre _ _; simp [flattenAux]
  | cons p flat ih =>
      obtain ⟨k, v⟩ := p
      intro acc pre hnd hdisj
      have hn : k ∉ keysOf flat ∧ keysNoDup flat = true := by
        simpa only [keysNoDup, Bool.and_eq_true, decide_eq_true_eq] using hnd
      have hfresh : pre ++ k ∉ keysOf acc :=
        hdisj k (by rw [keysOf_cons]; exact List.mem_cons_self _ _)
      have hdisj2 : ∀ k1 ∈ keysOf flat, (pre ++ k1) ∉ keysOf (setKey acc (pre ++ k) v) := by
        intro k1 hk1
        rw [setKey_of_not_mem hfresh, keysOf_append]
        intro hmem
        rcases List.mem_append.mp hmem with hm1 | hm1
        · exact hdisj k1 (by rw [keysOf_cons]; exact List.mem_cons_of_mem _ hk1) hm1
        · have hkk : pre ++ k1 = pre ++ k := List.mem_singleton.mp hm1
          exact hn.1 (List.append_cancel_left hkk ▸ hk1)
      simp only [List.map_cons, flattenAux]
      rw [ih _ pre hn.2 hdisj2, setKey_of_not_mem hfresh, List.append_assoc]
      rfl

/-- C2 counterexample: in the tree with a leaf at the dotted key "a.b" next to
the subtree {a: {b: _}}, the two distinct leaves produce the same path "a.b":
the flattened mapping holds a single entry, the second leaf having overwritten
the first, refuting the claim for trees with keys containing the separator. -/
theorem flattenHandlers_merges_dotted_keys :
    countLeaves [(['a','.','b'], FnTree.leaf 0),
        (['a'], FnTree.node [(['b'], FnTree.leaf 1)])] = 2 ∧
      flattenHandlers [(['a','.','b'], FnTree.leaf 0),
        (['a'], FnTree.node [(['b'], FnTree.leaf 1)])] = [(['a','.','b'], 1)] := by
  constructor
  · simp [countLeaves]
  · simp [flattenHandlers, flattenAux, mergeRec, setKey]

/-- C2 amended: for a mutator tree whose keys contain no '.' (and are unique at
each level, as JS object keys are), any two distinct leaves produce distinct
dot-joined paths, so the flattened mapping never merges or overwrites one
leaf's entry with another's: its keys are pairwise distinct and it has exactly
one entry per leaf. -/
theorem flattenHandlers_distinct_paths {α : Type} (fns : List (Str × FnTree α))
    (hg : goodTree fns = true) :
    (keysOf (flattenHandlers fns)).Nodup ∧
      (flattenHandlers fns).length = countLeaves fns := by
  have hflat : flattenHandlers fns = leafEntries fns [] := by
    have h0 := flattenAux_eq_append [] fns [] hg (by intro k hk; simp [keysOf] at hk)
    simpa [flattenHandlers] using h0
  rw [hflat]
  exact ⟨keys_leafEntries_nodup fns [] hg, length_leafEntries fns []⟩

/-- Witness for the amended C2 at the tree {a: {b: _, c: _}}. -/
theorem flattenHandlers_distinct_paths_witness :
    (keysOf (flattenHandlers [(['a'],
        FnTree.node [(['b'], FnTree.leaf 0), (['c'], FnTree.leaf 1)])])).Nodup ∧
      (flattenHandlers [(['a'],
        FnTree.node [(['b'], FnTree.leaf 0), (['c'], FnTree.leaf 1)])]).length =
        countLeaves [(['a'], FnTree.node [(['b'], FnTree.leaf 0), (['c'], FnTree.leaf 1)])] :=
  flattenHandlers_distinct_paths _ (by simp [goodTree, keysOf])

/-- C3 counterexample: with a leaf at the dotted key "x.y" next to the subtree
{x: {y: _}}, the flattened mapping does not contain one entry per leaf: the
first leaf has no entry of its own, its key having been taken over by the
second. -/
theorem flattenHandlers_loses_leaf_on_dotted_key :
    countLeaves [(['x','.','y'], FnTree.leaf 0),
        (['x'], FnTree.node [(['y'], FnTree.leaf 1)])] = 2 ∧
      flattenHandlers [(['x','.','y'], FnTree.leaf 0),
        (['x'], FnTree.node [(['y'], FnTree.leaf 1)])] = [(['x','.','y'], 1)] := by
  constructor
  · simp [countLeaves]
  · simp [flattenHandlers, flattenAux, mergeRec, setKey]

/-- C3 amended: for a mutator tree whose keys contain no '.' and are unique at
each level, flattenHandlers returns exactly the leaf entries: one entry per
leaf, keyed by the leaf's full dot-joined path from the root, and nothing for
intermediate nodes (`leafEntries` is that spec-side enumeration). -/
theorem flattenHandlers_eq_leafEntries {α : Type} (fns : List (Str × FnTree α))
    (hg : goodTree fns = true) : flattenHandlers fns = leafEntries fns [] := by
  have h0 := flattenAux_eq_append [] fns [] hg (by intro k hk; simp [keysOf] at hk)
  simpa [flattenHandlers] using h0

/-- Witness for the amended C3: flatten {a: {b: f, c: g}} = {"a.b": f, "a.c": g}. -/
theorem flattenHandlers_eq_leafEntries_witness :
    flattenHandlers [(['a'], FnTree.node [(['b'], FnTree.leaf 0), (['c'], FnTree.leaf 1)])] =
      [(['a','.','b'], 0), (['a','.','c'], 1)] := by
  rw [flattenHandlers_eq_leafEntries _ (by simp [goodTree, keysOf])]
  simp [leafEntries]

/-- C9: the empty tree flattens to the empty mapping, and a tree with no nested
sub-trees (every value a leaf) flattens to exactly its own key-function
pairs. -/
theorem flattenHandlers_flat_identity {α : Type} (flat : List (Str × α))
    (hnd : keysNoDup flat = true) :
    flattenHandlers ([] : List (Str × FnTree α)) = [] ∧
      flattenHandlers (flat.map (fun p => (p.1, FnTree.leaf p.2))) = flat := by
  constructor
  · simp [flattenHandlers, flattenAux]
  · have h0 := flattenAux_all_leaves flat [] [] hnd (by intro k _ hk; simp [keysOf] at hk)
    simpa [flattenHandlers] using h0

/-- Witness for C9 at the flat tree {inc: f, dec: g}. -/
theorem flattenHandlers_flat_identity_witness :
    flattenHandlers ([] : List (Str × FnTree Nat)) = [] ∧
      flattenHandlers ([(['i','n','c'], 7), (['d','e','c'], 8)].map
        (fun p => (p.1, FnTree.leaf p.2))) = [(['i','n','c'], 7), (['d','e','c'], 8)] :=
  flattenHandlers_flat_identity [(['i','n','c'], 7), (['d','e','c'], 8)]
    (by simp [keysNoDup, keysOf])

/-! ## Lemmas: the invocation tree builder -/

theorem any_key_iff {α : Type} {r : List (Str × α)} {k : Str} :
    r.any (fun p => p.1 = k) = true ↔ k ∈ keysOf r := by
  induction r with
  | nil => simp [keysOf]
  | cons p rest ih =>
      obtain ⟨k1, v1⟩ := p
      rw [keysOf_cons]
      simp only [List.any_cons, Bool.or_eq_true, decide_eq_true_eq, List.mem_cons, ih]
      constructor
      · rintro (rfl | h)
        · exact Or.inl rfl
        · exact Or.inr h
      · rintro (rfl | h)
        · exact Or.inl rfl
        · exact Or.inr h

theorem keysOf_map_overwrite {α : Type} (k : Str) (v : α) : ∀ (r : List (Str × α)),
    keysOf (r.map (fun p => if p.1 = k then (k, v) else p)) = keysOf r := by
  intro r
  induction r with
  | nil => rfl
  | cons p rest ih =>
      obtain ⟨k2, v2⟩ := p
      by_cases h2 : k2 = k
      · subst h2
        simp [keysOf_cons, ih]
      · simp [keysOf_cons, ih, h2]

theorem mem_keys_setKey {α : Type} {r : List (Str × α)} {k k1 : Str} {v : α} :
    k1 ∈ keysOf (setKey r k v) ↔ k1 ∈ keysOf r ∨ k1 = k := by
  by_cases hmem : k ∈ keysOf r
  · have hany : r.any (fun p => p.1 = k) = true := any_key_iff.mpr hmem
    simp only [setKey, hany, if_true, keysOf_map_overwrite]
    constructor
    · exact Or.inl
    · rintro (h | rfl)
      · exact h
      · exact hmem
  · have hany : r.any (fun p => p.1 = k) = false := by
      rw [← Bool.not_eq_true, any_key_iff]
      exact hmem
    simp only [setKey, hany, Bool.false_eq_true, if_false, keysOf_append]
    rw [List.mem_append]
    constructor
    · rintro (h | h)
      · exact Or.inl h
      · exact Or.inr (List.mem_singleton.mp h)
    · rintro (h | rfl)
      · exact Or.inl h
      · exact Or.inr (List.mem_singleton.mpr rfl)

theorem mem_keys_mergeRec {α : Type} : ∀ {b a : List (Str × α)} {k1 : Str},
    k1 ∈ keysOf (mergeRec a b) ↔ k1 ∈ keysOf a ∨ k1 ∈ keysOf b := by
  intro b
  induction b with
  | nil =>
      intro a k1
      rw [show mergeRec a ([] : List (Str × α)) = a from rfl,
        show keysOf ([] : List (Str × α)) = [] from rfl]
      simp
  | cons p b ih =>
      obtain ⟨k, v⟩ := p
      intro a k1
      have hstep : mergeRec a ((k, v) :: b) = mergeRec (setKey a k v) b := rfl
      rw [hstep, ih, mem_keys_setKey, keysOf_cons, List.mem_cons]
      tauto

theorem mem_keys_flattenAux {α : Type} :
    ∀ (acc : List (Str × α)) (fns : List (Str × FnTree α)) (pre k : Str),
      k ∈ keysOf (flattenAux acc fns pre) ↔
        k ∈ keysOf acc ∨ k ∈ keysOf (leafEntries fns pre) := by
  intro acc fns pre
  induction acc, fns, pre using flattenAux.induct with
  | case1 acc pre =>
      intro k
      simp only [flattenAux, leafEntries]
      rw [show keysOf ([] : List (Str × α)) = [] from rfl]
      simp
  | case2 acc name f rest pre ih =>
      intro k
      simp only [flattenAux, leafEntries, keysOf_cons] at ih ⊢
      rw [ih k, mem_keys_setKey, List.mem_cons]
      tauto
  | case3 acc name ch rest pre ih1 ih2 =>
      intro k
      simp only [flattenAux, leafEntries, keysOf_append] at ih2 ⊢
      rw [ih2 k, mem_keys_mergeRec, List.mem_append]
      have h1 := ih1 k
      rw [show keysOf ([] : List (Str × α)) = [] from rfl] at h1
      simp only [List.not_mem_nil, false_or] at h1
      rw [h1]
      tauto

/-- The invocation tree has exactly the source tree's shape. -/
theorem shapeA_makeActions {α : Type} :
    ∀ (fns : List (Str × FnTree α)) (pre : Str),
      shapeA (makeActions fns pre) = shapeF fns := by
  intro fns pre
  induction fns, pre using makeActions.induct with
  | case1 pre => simp [makeActions, shapeA, shapeF]
  | case2 name f rest pre ih => simp only [makeActions, shapeA, shapeF, ih]
  | case3 name ch rest pre ih1 ih2 => simp only [makeActions, shapeA, shapeF, ih1, ih2]

/-- The key paths of the invocation tree's handles are the keys of the
flattened entries. -/
theorem actionPaths_makeActions {α : Type} :
    ∀ (fns : List (Str × FnTree α)) (q : Str), ∀ pre : Str,
      actionPaths (makeActions fns q) pre = keysOf (leafEntries fns pre) := by
  intro fns q
  induction fns, q using makeActions.induct with
  | case1 q => intro pre; simp [makeActions, actionPaths, leafEntries, keysOf]
  | case2 name f rest q ih =>
      intro pre
      simp only [makeActions, actionPaths, leafEntries, keysOf_cons, ih pre]
  | case3 name ch rest q ih1 ih2 =>
      intro pre
      simp only [makeActions, actionPaths, leafEntries, keysOf_append,
        ih1 (pre ++ name ++ ['.']), ih2 pre]

/-- Looking a key up in the invocation tree finds the converted entry. -/
theorem lookupA_makeActions {α : Type} :
    ∀ (fns : List (Str × FnTree α)) (pre k : Str),
      lookupA (makeActions fns pre) k =
        match lookupA fns k with
        | some (.leaf _) => some (.handle (pre ++ k))
        | some (.node ch) => some (.node (makeActions ch (pre ++ k ++ ['.'])))
        | none => none := by
  intro fns
  induction fns with
  | nil => intro pre k; simp [makeActions, lookupA]
  | cons p rest ih =>
      obtain ⟨name, t⟩ := p
      intro pre k
      cases t with
      | leaf f =>
          by_cases hk : k = name
          · subst hk
            simp [makeActions, lookupA]
          · simp [makeActions, lookupA, hk, ih]
      | node ch =>
          by_cases hk : k = name
          · subst hk
            simp [makeActions, lookupA]
          · simp [makeActions, lookupA, hk, ih]

/-- Walking the invocation tree along keys `ks` and calling the handle there
dispatches the action whose type is the keys joined with dots. -/
theorem callAt_makeActions {α : Type} :
    ∀ (ks : List Str) (fns : List (Str × FnTree α)) (pre : Str)
      (args : List JsVal) (m : ActionMsg),
      callAt (makeActions fns pre) ks args = some m →
      m = ⟨pre ++ dotJoin ks, args⟩ := by
  intro ks
  induction ks with
  | nil => intro fns pre args m hc; simp [callAt] at hc
  | cons k ks ih =>
      intro fns pre args m hc
      cases ks with
      | nil =>
          rw [show callAt (makeActions fns pre) [k] args =
              (match lookupA (makeActions fns pre) k with
               | some (.handle t) => some ⟨t, args⟩
               | _ => none) from rfl, lookupA_makeActions] at hc
          cases hlk : lookupA fns k with
          | none => rw [hlk] at hc; simp at hc
          | some t =>
              cases t with
              | leaf f =>
                  rw [hlk] at hc
                  simp only [Option.some.injEq] at hc
                  simp [← hc, dotJoin]
              | node ch => rw [hlk] at hc; simp at hc
      | cons k2 ks2 =>
          rw [show callAt (makeActions fns pre) (k :: k2 :: ks2) args =
              (match lookupA (makeActions fns pre) k with
               | some (.node ch) => callAt ch (k2 :: ks2) args
               | _ => none) from rfl, lookupA_makeActions] at hc
          cases hlk : lookupA fns k with
          | none => rw [hlk] at hc; simp at hc
          | some t =>
              cases t with
              | leaf f => rw [hlk] at hc; simp at hc
              | node ch =>
                  rw [hlk] at hc
                  simp only [] at hc
                  have := ih ch (pre ++ k ++ ['.']) args m hc
                  rw [this]
                  simp [dotJoin, List.append_assoc]

/-- C4: the invocation tree built by makeActions has exactly the source tree's
shape (same keys, same nesting, same depth) with leaves replaced by handles;
its set of handle key-paths equals the key set of the flattened mapping; and
calling the handle at key path `ks` with `args` dispatches exactly one
transition request whose path is the keys dot-joined and whose argument list is
`args`. -/
theorem makeActions_mirrors_tree_and_dispatches_path {α : Type}
    (fns : List (Str × FnTree α)) (ks : List Str) (args : List JsVal) (m : ActionMsg)
    (hc : callAt (makeActions fns []) ks args = some m) :
    shapeA (makeActions fns []) = shapeF fns ∧
      (∀ k, k ∈ actionPaths (makeActions fns []) [] ↔ k ∈ keysOf (flattenHandlers fns)) ∧
      m = ⟨dotJoin ks, args⟩ := by
  refine ⟨shapeA_makeActions fns [], fun k => ?_, ?_⟩
  · rw [actionPaths_makeActions fns [] []]
    show k ∈ keysOf (leafEntries fns []) ↔ k ∈ keysOf (flattenAux [] fns [])
    rw [mem_keys_flattenAux [] fns [] k,
      show keysOf ([] : List (Str × α)) = [] from rfl]
    simp
  · have h0 := callAt_makeActions ks fns [] args m hc
    simpa using h0

/-- Witness for C4 at the tree {a: {b: {c: f}}} and the call
`invocations.a.b.c(1, 2)`. -/
theorem makeActions_mirrors_tree_and_dispatches_path_witness :
    shapeA (makeActions [(['a'], FnTree.node [(['b'],
        FnTree.node [(['c'], FnTree.leaf 0)])])] []) =
      shapeF [(['a'], FnTree.node [(['b'], FnTree.node [(['c'], FnTree.leaf 0)])])] ∧
    (∀ k, k ∈ actionPaths (makeActions [(['a'], FnTree.node [(['b'],
        FnTree.node [(['c'], FnTree.leaf 0)])])] []) [] ↔
      k ∈ keysOf (flattenHandlers [(['a'], FnTree.node [(['b'],
        FnTree.node [(['c'], FnTree.leaf 0)])])])) ∧
    (⟨['a','.','b','.','c'], [JsVal.vnum 1, JsVal.vnum 2]⟩ : ActionMsg) =
      ⟨dotJoin [['a'], ['b'], ['c']], [JsVal.vnum 1, JsVal.vnum 2]⟩ :=
  makeActions_mirrors_tree_and_dispatches_path
    [(['a'], FnTree.node [(['b'], FnTree.node [(['c'], FnTree.leaf 0)])])]
    [['a'], ['b'], ['c']] [JsVal.vnum 1, JsVal.vnum 2]
    ⟨['a','.','b','.','c'], [JsVal.vnum 1, JsVal.vnum 2]⟩
    (by simp [makeActions, callAt, lookupA])

/-! ## Lemmas: the JSON round trip -/

mutual

/-- A JSON-pure value survives the stringify/parse round trip unchanged. -/
theorem clone_id_of_pure : ∀ (v : JsVal), isPureJson v = true →
    (stringifyV v).map parseJ = some v := by
  intro v h
  cases v with
  | vundefined => simp [isPureJson] at h
  | vnull => simp [stringifyV, parseJ]
  | vbool b => simp [stringifyV, parseJ]
  | vnum n => simp [stringifyV, parseJ]
  | vnan => simp [isPureJson] at h
  | vinf => simp [isPureJson] at h
  | vninf => simp [isPureJson] at h
  | vstr s => simp [stringifyV, parseJ]
  | varr xs =>
      have h1 : isPureArr xs = true := by simpa [isPureJson] using h
      simp [stringifyV, parseJ, clone_id_arr xs h1]
  | vobj fs =>
      have h1 : isPureFields fs = true := by simpa [isPureJson] using h
      simp [stringifyV, parseJ, clone_id_fields fs h1]
  | vfun i => simp [isPureJson] at h
  | vdate t => simp [isPureJson] at h

theorem clone_id_arr : ∀ (xs : List JsVal), isPureArr xs = true →
    parseArr (stringifyArr xs) = xs := by
  intro xs h
  cases xs with
  | nil => simp [stringifyArr, parseArr]
  | cons x xs =>
      have h1 : isPureJson x = true ∧ isPureArr xs = true := by
        simpa [isPureArr, Bool.and_eq_true] using h
      have hx := clone_id_of_pure x h1.1
      cases hs : stringifyV x with
      | none => rw [hs, Option.map_none'] at hx; exact Option.noConfusion hx
      | some j =>
          rw [hs, Option.map_some'] at hx
          simp only [Option.some.injEq] at hx
          simp [stringifyArr, parseArr, hs, hx, clone_id_arr xs h1.2]

theorem clone_id_fields : ∀ (fs : List (Str × JsVal)), isPureFields fs = true →
    parseFields (stringifyFields fs) = fs := by
  intro fs h
  cases fs with
  | nil => simp [stringifyFields, parseFields]
  | cons p fs =>
      obtain ⟨k, x⟩ := p
      have h1 : isPureJson x = true ∧ isPureFields fs = true := by
        simpa [isPureFields, Bool.and_eq_true] using h
      have hx := clone_id_of_pure x h1.1
      cases hs : stringifyV x with
      | none => rw [hs, Option.map_none'] at hx; exact Option.noConfusion hx
      | some j =>
          rw [hs, Option.map_some'] at hx
          simp only [Option.some.injEq] at hx
          simp [stringifyFields, parseFields, hs, hx, clone_id_fields fs h1.2]

end

theorem parseFields_length : ∀ (l : List (Str × Json)),
    (parseFields l).length = l.length := by
  intro l
  induction l with
  | nil => simp [parseFields]
  | cons p l ih =>
      obtain ⟨k, x⟩ := p
      simp [parseFields, ih]

theorem stringifyFields_length_le : ∀ (fs : List (Str × JsVal)),
    (stringifyFields fs).length ≤ fs.length := by
  intro fs
  induction fs with
  | nil => simp [stringifyFields]
  | cons p fs ih =>
      obtain ⟨k, x⟩ := p
      cases hs : stringifyV x with
      | none => simp [stringifyFields, hs]; omega
      | some j => simp [stringifyFields, hs]; omega

mutual

/-- Only JSON-pure values survive the round trip unchanged. -/
theorem pure_of_clone_id : ∀ (v : JsVal), (stringifyV v).map parseJ = some v →
    isPureJson v = true := by
  intro v h
  cases v with
  | vundefined => simp [stringifyV] at h
  | vnull => simp [isPureJson]
  | vbool b => simp [isPureJson]
  | vnum n => simp [isPureJson]
  | vnan => simp [stringifyV, parseJ] at h
  | vinf => simp [stringifyV, parseJ] at h
  | vninf => simp [stringifyV, parseJ] at h
  | vstr s => simp [isPureJson]
  | varr xs =>
      simp only [stringifyV, Option.map_some', parseJ, Option.some.injEq,
        JsVal.varr.injEq] at h
      simpa [isPureJson] using pure_of_clone_id_arr xs h
  | vobj fs =>
      simp only [stringifyV, Option.map_some', parseJ, Option.some.injEq,
        JsVal.vobj.injEq] at h
      simpa [isPureJson] using pure_of_clone_id_fields fs h
  | vfun i => simp [stringifyV] at h
  | vdate t => simp [stringifyV, parseJ] at h

theorem pure_of_clone_id_arr : ∀ (xs : List JsVal),
    parseArr (stringifyArr xs) = xs → isPureArr xs = true := by
  intro xs h
  cases xs with
  | nil => simp [isPureArr]
  | cons x xs =>
      simp only [stringifyArr, parseArr, List.cons.injEq] at h
      obtain ⟨h1, h2⟩ := h
      have hx : isPureJson x = true := by
        cases hs : stringifyV x with
        | none =>
            exfalso
            rw [hs, Option.getD_none] at h1
            have hxv : JsVal.vnull = x := by simpa [parseJ] using h1
            rw [← hxv] at hs
            simp [stringifyV] at hs
        | some j =>
            rw [hs, Option.getD_some] at h1
            exact pure_of_clone_id x (by rw [hs, Option.map_some', h1])
      simp [isPureArr, hx, pure_of_clone_id_arr xs h2]

theorem pure_of_clone_id_fields : ∀ (fs : List (Str × JsVal)),
    parseFields (stringifyFields fs) = fs → isPureFields fs = true := by
  intro fs h
  cases fs with
  | nil => simp [isPureFields]
  | cons p fs =>
      obtain ⟨k, x⟩ := p
      cases hs : stringifyV x with
      | none =>
          exfalso
          rw [show stringifyFields ((k, x) :: fs) = stringifyFields fs from by
            simp [stringifyFields, hs]] at h
          have hlen := congrArg List.length h
          rw [parseFields_length] at hlen
          have hle := stringifyFields_length_le fs
          simp at hlen
          omega
      | some j =>
          rw [show stringifyFields ((k, x) :: fs) = (k, j) :: stringifyFields fs from by
            simp [stringifyFields, hs]] at h
          simp only [parseFields, List.cons.injEq, Prod.mk.injEq] at h
          have hx : isPureJson x = true :=
            pure_of_clone_id x (by rw [hs, Option.map_some', h.1.2])
          simp [isPureFields, hx, pure_of_clone_id_fields fs h.2]

end

/-- C10: the writable copy handed to a matched mutator is the JSON round trip
of the current state: for a JSON-representable state the copy equals the
original; for a state containing anything JSON cannot represent the round trip
alters it, so every matched transition changes the state even under the no-op
mutator `s => {}`. -/
theorem deepClone_is_json_roundtrip (v w init : JsVal) (p : Str)
    (hv : isPureJson v = true) (hw : isPureJson w = false) :
    deepClone v = some v ∧ deepClone w ≠ some w ∧
      makeReducer init [(p, noopMut)] (some w) ⟨p, []⟩ ≠ .ok w := by
  have hne : deepClone w ≠ some w := by
    intro hcl
    rw [pure_of_clone_id w hcl] at hw
    exact Bool.noConfusion hw
  refine ⟨clone_id_of_pure v hv, hne, ?_⟩
  show reduceGo [(p, noopMut)] w ⟨p, []⟩ ≠ .ok w
  simp only [reduceGo, if_pos rfl]
  cases hcl : deepClone w with
  | none => exact fun hcontr => Except.noConfusion hcontr
  | some c =>
      intro hcontr
      have h1 : (Except.ok c : Except Str JsVal) = .ok w := hcontr
      rw [Except.ok.inj h1] at hcl
      exact hne hcl

/-- Witness for C10: the pure state {value: 1} round-trips to itself; the state
{f: function, d: undefined, n: NaN} does not, and a matched no-op transition on
it does not return it. -/
theorem deepClone_is_json_roundtrip_witness :
    deepClone (.vobj [(valueKey, .vnum 1)]) = some (.vobj [(valueKey, .vnum 1)]) ∧
      deepClone (.vobj [(['f'], .vfun 0), (['d'], .vundefined), (['n'], .vnan)]) ≠
        some (.vobj [(['f'], .vfun 0), (['d'], .vundefined), (['n'], .vnan)]) ∧
      makeReducer .vnull [(resetKey, noopMut)]
          (some (.vobj [(['f'], .vfun 0), (['d'], .vundefined), (['n'], .vnan)]))
          ⟨resetKey, []⟩ ≠
        .ok (.vobj [(['f'], .vfun 0), (['d'], .vundefined), (['n'], .vnan)]) :=
  deepClone_is_json_roundtrip (.vobj [(valueKey, .vnum 1)])
    (.vobj [(['f'], .vfun 0), (['d'], .vundefined), (['n'], .vnan)]) .vnull resetKey
    (by simp [isPureJson, isPureFields])
    (by simp [isPureJson, isPureFields])

/-! ## Lemmas: the heap model -/

theorem nextAddr_cons (p : Addr × HObj) (h : Heap) :
    nextAddr (p :: h) = max (p.1 + 1) (nextAddr h) := rfl

theorem mem_lt_nextAddr : ∀ {h : Heap} {a : Addr} {o : HObj},
    (a, o) ∈ h → a < nextAddr h := by
  intro h
  induction h with
  | nil => intro a o hm; cases hm
  | cons p rest ih =>
      intro a o hm
      rw [nextAddr_cons]
      rcases List.mem_cons.mp hm with rfl | hm1
      · exact lt_of_lt_of_le (Nat.lt_succ_self a) (le_max_left _ _)
      · exact lt_of_lt_of_le (ih hm1) (le_max_right _ _)

theorem lookupH_mem : ∀ {h : Heap} {a : Addr} {o : HObj},
    lookupH h a = some o → (a, o) ∈ h := by
  intro h
  induction h with
  | nil => intro a o hl; cases hl
  | cons p rest ih =>
      obtain ⟨b, o1⟩ := p
      intro a o hl
      simp only [lookupH] at hl
      by_cases hab : a = b
      · rw [if_pos hab] at hl
        rw [Option.some.inj hl] at *
        exact hab ▸ List.mem_cons_self _ _
      · rw [if_neg hab] at hl
        exact List.mem_cons_of_mem _ (ih hl)

theorem lookupH_isSome_lt {h : Heap} {a : Addr} (hl : (lookupH h a).isSome) :
    a < nextAddr h := by
  cases hs : lookupH h a with
  | none => rw [hs] at hl; cases hl
  | some o => exact mem_lt_nextAddr (lookupH_mem hs)

theorem lookupH_append : ∀ (h1 h2 : Heap) (a : Addr),
    lookupH (h1 ++ h2) a =
      match lookupH h1 a with
      | some o => some o
      | none => lookupH h2 a := by
  intro h1 h2 a
  induction h1 with
  | nil => simp [lookupH]
  | cons p rest ih =>
      obtain ⟨b, o1⟩ := p
      by_cases hab : a = b
      · simp [lookupH, hab]
      · simp [lookupH, hab, ih]

theorem nextAddr_le_append : ∀ (h1 h2 : Heap), nextAddr h1 ≤ nextAddr (h1 ++ h2) := by
  intro h1 h2
  induction h1 with
  | nil => exact Nat.zero_le _
  | cons p rest ih =>
      rw [List.cons_append, nextAddr_cons, nextAddr_cons]
      exact max_le_max (le_refl _) ih

theorem refsHigh_mono {n1 n2 : Nat} {v : HVal} (h : RefsHigh n2 v) (hle : n1 ≤ n2) :
    RefsHigh n1 v := fun a ha => le_trans hle (h a ha)

theorem objRefsHigh_mono {n1 n2 : Nat} {o : HObj} (h : ObjRefsHigh n2 o) (hle : n1 ≤ n2) :
    ObjRefsHigh n1 o := fun p hp => refsHigh_mono (h p hp) hle

mutual

/-- What JSON.parse's allocation does to the heap: it appends entries whose
addresses are fresh and whose fields reference only fresh addresses, and
returns a value referencing only fresh addresses. -/
theorem allocJ_spec : ∀ (j : Json) (h : Heap),
    (∃ e, (allocJ j h).2 = h ++ e ∧
      ∀ q ∈ e, nextAddr h ≤ q.1 ∧ ObjRefsHigh (nextAddr h) q.2) ∧
      RefsHigh (nextAddr h) (allocJ j h).1 := by
  intro j h
  cases j with
  | null =>
      exact ⟨⟨[], by simp [allocJ], by simp⟩, fun a ha => HVal.noConfusion ha⟩
  | bool b =>
      exact ⟨⟨[], by simp [allocJ], by simp⟩, fun a ha => HVal.noConfusion ha⟩
  | num n =>
      exact ⟨⟨[], by simp [allocJ], by simp⟩, fun a ha => HVal.noConfusion ha⟩
  | str s =>
      exact ⟨⟨[], by simp [allocJ], by simp⟩, fun a ha => HVal.noConfusion ha⟩
  | arr xs =>
      obtain ⟨⟨e, he, hent⟩, hfs⟩ := allocArr_spec xs 0 h
      have hnle : nextAddr h ≤ nextAddr (allocArr xs 0 h).2 := by
        rw [he]; exact nextAddr_le_append h e
      refine ⟨⟨e ++ [(nextAddr (allocArr xs 0 h).2, (allocArr xs 0 h).1)], ?_, ?_⟩, ?_⟩
      · simp only [allocJ]
        rw [he, List.append_assoc]
      · intro q hq
        rcases List.mem_append.mp hq with hq1 | hq1
        · exact hent q hq1
        · rw [List.mem_singleton.mp hq1]
          exact ⟨hnle, hfs⟩
      · intro a ha
        simp only [allocJ] at ha
        rw [← HVal.href.inj ha]
        exact hnle
  | obj fs =>
      obtain ⟨⟨e, he, hent⟩, hfs⟩ := allocFields_spec fs h
      have hnle : nextAddr h ≤ nextAddr (allocFields fs h).2 := by
        rw [he]; exact nextAddr_le_append h e
      refine ⟨⟨e ++ [(nextAddr (allocFields fs h).2, (allocFields fs h).1)], ?_, ?_⟩, ?_⟩
      · simp only [allocJ]
        rw [he, List.append_assoc]
      · intro q hq
        rcases List.mem_append.mp hq with hq1 | hq1
        · exact hent q hq1
        · rw [List.mem_singleton.mp hq1]
          exact ⟨hnle, hfs⟩
      · intro a ha
        simp only [allocJ] at ha
        rw [← HVal.href.inj ha]
        exact hnle

theorem allocArr_spec : ∀ (xs : List Json) (i : Nat) (h : Heap),
    (∃ e, (allocArr xs i h).2 = h ++ e ∧
      ∀ q ∈ e, nextAddr h ≤ q.1 ∧ ObjRefsHigh (nextAddr h) q.2) ∧
      ObjRefsHigh (nextAddr h) (allocArr xs i h).1 := by
  intro xs i h
  cases xs with
  | nil =>
      refine ⟨⟨[], by simp [allocArr], by simp⟩, ?_⟩
      intro p hp
      simp [allocArr] at hp
  | cons x xs =>
      obtain ⟨⟨e1, he1, hent1⟩, hv1⟩ := allocJ_spec x h
      obtain ⟨⟨e2, he2, hent2⟩, hfs2⟩ := allocArr_spec xs (i + 1) (allocJ x h).2
      have hnle : nextAddr h ≤ nextAddr (allocJ x h).2 := by
        rw [he1]; exact nextAddr_le_append h e1
      refine ⟨⟨e1 ++ e2, ?_, ?_⟩, ?_⟩
      · simp only [allocArr]
        rw [he2, he1, List.append_assoc]
      · intro q hq
        rcases List.mem_append.mp hq with hq1 | hq1
        · exact hent1 q hq1
        · obtain ⟨hq2, hq3⟩ := hent2 q hq1
          exact ⟨le_trans hnle hq2, objRefsHigh_mono hq3 hnle⟩
      · intro p hp
        simp only [allocArr] at hp
        rcases List.mem_cons.mp hp with rfl | hp1
        · exact hv1
        · exact refsHigh_mono (hfs2 p hp1) hnle

theorem allocFields_spec : ∀ (fs : List (Str × Json)) (h : Heap),
    (∃ e, (allocFields fs h).2 = h ++ e ∧
      ∀ q ∈ e, nextAddr h ≤ q.1 ∧ ObjRefsHigh (nextAddr h) q.2) ∧
      ObjRefsHigh (nextAddr h) (allocFields fs h).1 := by
  intro fs h
  cases fs with
  | nil =>
      refine ⟨⟨[], by simp [allocFields], by simp⟩, ?_⟩
      intro p hp
      simp [allocFields] at hp
  | cons p fs =>
      obtain ⟨k, x⟩ := p
      obtain ⟨⟨e1, he1, hent1⟩, hv1⟩ := allocJ_spec x h
      obtain ⟨⟨e2, he2, hent2⟩, hfs2⟩ := allocFields_spec fs (allocJ x h).2
      have hnle : nextAddr h ≤ nextAddr (allocJ x h).2 := by
        rw [he1]; exact nextAddr_le_append h e1
      refine ⟨⟨e1 ++ e2, ?_, ?_⟩, ?_⟩
      · simp only [allocFields]
        rw [he2, he1, List.append_assoc]
      · intro q hq
        rcases List.mem_append.mp hq with hq1 | hq1
        · exact hent1 q hq1
        · obtain ⟨hq2, hq3⟩ := hent2 q hq1
          exact ⟨le_trans hnle hq2, objRefsHigh_mono hq3 hnle⟩
      · intro q hq
        simp only [allocFields] at hq
        rcases List.mem_cons.mp hq with rfl | hq1
        · exact hv1
        · exact refsHigh_mono (hfs2 q hq1) hnle

end

/-- `fieldsMap` congruence: a reader that preserves every successful field
readout preserves the whole field list readout. -/
theorem fieldsMap_congr (f g : HVal → Option Json)
    (hfg : ∀ v j, f v = some j → g v = some j) :
    ∀ (fs : List (Str × HVal)) (js : List (Str × Json)),
      fieldsMap f fs = some js → fieldsMap g fs = some js := by
  intro fs
  induction fs with
  | nil => intro js hro; simpa [fieldsMap] using hro
  | cons p fs ih =>
      obtain ⟨k, v⟩ := p
      intro js hro
      simp only [fieldsMap] at hro ⊢
      cases hrv : f v with
      | none => rw [hrv] at hro; exact Option.noConfusion hro
      | some jv =>
          rw [hrv] at hro
          cases hrf : fieldsMap f fs with
          | none => rw [hrf] at hro; exact Option.noConfusion hro
          | some jfs =>
              rw [hrf] at hro
              rw [hfg v jv hrv, ih jfs hrf]
              exact hro

/-- `fieldsMap` congruence restricted to low field lists. -/
theorem fieldsMap_congr_low (f g : HVal → Option Json) (n : Nat)
    (hfg : ∀ v j, RefsLow n v → f v = some j → g v = some j) :
    ∀ (fs : List (Str × HVal)) (js : List (Str × Json)), ObjRefsLow n fs →
      fieldsMap f fs = some js → fieldsMap g fs = some js := by
  intro fs
  induction fs with
  | nil => intro js _ hro; simpa [fieldsMap] using hro
  | cons p fs ih =>
      obtain ⟨k, v⟩ := p
      intro js hofs hro
      simp only [fieldsMap] at hro ⊢
      cases hrv : f v with
      | none => rw [hrv] at hro; exact Option.noConfusion hro
      | some jv =>
          rw [hrv] at hro
          cases hrf : fieldsMap f fs with
          | none => rw [hrf] at hro; exact Option.noConfusion hro
          | some jfs =>
              rw [hrf] at hro
              rw [hfg v jv (hofs (k, v) (List.mem_cons_self _ _)) hrv,
                ih jfs (fun q hq => hofs q (List.mem_cons_of_mem _ hq)) hrf]
              exact hro

/-- A successful readout is preserved by any heap change that keeps every
allocated cell it can see. -/
theorem readout_agree : ∀ (fuel : Nat) (h1 h2 : Heap),
    (∀ a, (lookupH h1 a).isSome → lookupH h2 a = lookupH h1 a) →
    ∀ (v : HVal) (j : Json), readout fuel h1 v = some j → readout fuel h2 v = some j := by
  intro fuel
  induction fuel with
  | zero =>
      intro h1 h2 hag v j hro
      cases v with
      | hnull => simpa [readout] using hro
      | hbool b => simpa [readout] using hro
      | hnum n1 => simpa [readout] using hro
      | hstr s1 => simpa [readout] using hro
      | href a => simp [readout] at hro
  | succ f ih =>
      intro h1 h2 hag v j hro
      cases v with
      | hnull => simpa [readout] using hro
      | hbool b => simpa [readout] using hro
      | hnum n1 => simpa [readout] using hro
      | hstr s1 => simpa [readout] using hro
      | href a =>
          simp only [readout, Nat.succ_ne_zero, dite_false, Nat.add_sub_cancel] at hro ⊢
          cases hl : lookupH h1 a with
          | none => rw [hl] at hro; exact Option.noConfusion hro
          | some o =>
              rw [hl] at hro
              rw [hag a (by rw [hl]; rfl), hl]
              have hro2 : Option.map Json.obj (fieldsMap (readout f h1) o) = some j := hro
              show Option.map Json.obj (fieldsMap (readout f h2) o) = some j
              cases hrf : fieldsMap (readout f h1) o with
              | none => rw [hrf, Option.map_none'] at hro2; exact Option.noConfusion hro2
              | some fs =>
                  rw [hrf, Option.map_some'] at hro2
                  rw [fieldsMap_congr (readout f h1) (readout f h2) (ih h1 h2 hag) o fs hrf,
                    Option.map_some']
                  exact hro2

/-- A successful readout of a low value is preserved by any heap change that
keeps the allocated cells below `n`, provided the low heap segment is closed
(its cells reference only low addresses). -/
theorem readout_framed : ∀ (fuel n : Nat) (h1 h2 : Heap),
    (∀ a, a < n → (lookupH h1 a).isSome → lookupH h2 a = lookupH h1 a) →
    LowOK h1 n →
    ∀ (v : HVal) (j : Json), RefsLow n v →
      readout fuel h1 v = some j → readout fuel h2 v = some j := by
  intro fuel
  induction fuel with
  | zero =>
      intro n h1 h2 hag hlow v j hrv hro
      cases v with
      | hnull => simpa [readout] using hro
      | hbool b => simpa [readout] using hro
      | hnum n1 => simpa [readout] using hro
      | hstr s1 => simpa [readout] using hro
      | href a => simp [readout] at hro
  | succ f ih =>
      intro n h1 h2 hag hlow v j hrv hro
      cases v with
      | hnull => simpa [readout] using hro
      | hbool b => simpa [readout] using hro
      | hnum n1 => simpa [readout] using hro
      | hstr s1 => simpa [readout] using hro
      | href a =>
          have ha : a < n := hrv a rfl
          simp only [readout, Nat.succ_ne_zero, dite_false, Nat.add_sub_cancel] at hro ⊢
          cases hl : lookupH h1 a with
          | none => rw [hl] at hro; exact Option.noConfusion hro
          | some o =>
              rw [hl] at hro
              rw [hag a ha (by rw [hl]; rfl), hl]
              have hro2 : Option.map Json.obj (fieldsMap (readout f h1) o) = some j := hro
              show Option.map Json.obj (fieldsMap (readout f h2) o) = some j
              cases hrf : fieldsMap (readout f h1) o with
              | none => rw [hrf, Option.map_none'] at hro2; exact Option.noConfusion hro2
              | some fs =>
                  rw [hrf, Option.map_some'] at hro2
                  rw [fieldsMap_congr_low (readout f h1) (readout f h2) n
                    (ih n h1 h2 hag hlow) o fs (hlow a o hl ha) hrf, Option.map_some']
                  exact hro2

/-- In a well-formed heap, every reference stored in a cell resolves. -/
theorem wf_field_ref {h : Heap} (hwf : wfHeap h = true) {a : Addr} {o : HObj}
    (hm : (a, o) ∈ h) {p : Str × HVal} (hp : p ∈ o) {b : Addr}
    (hb : p.2 = .href b) : (lookupH h b).isSome := by
  have h1 := List.all_eq_true.mp hwf _ hm
  have h2 := List.all_eq_true.mp h1 _ hp
  rw [hb] at h2
  exact h2

/-- After an allocation on a well-formed heap, the low segment (the
pre-existing cells) is still closed. -/
theorem lowOK_alloc (h : Heap) (j : Json) (hwf : wfHeap h = true) :
    LowOK (allocJ j h).2 (nextAddr h) := by
  obtain ⟨e, he, hent⟩ := (allocJ_spec j h).1
  intro a o hl ha
  rw [he, lookupH_append] at hl
  cases hl0 : lookupH h a with
  | some o0 =>
      rw [hl0] at hl
      obtain rfl : o0 = o := Option.some.inj hl
      intro p hp b hb
      exact lookupH_isSome_lt (wf_field_ref hwf (lookupH_mem hl0) hp hb)
  | none =>
      rw [hl0] at hl
      have h2 : nextAddr h ≤ a := (hent (a, o) (lookupH_mem hl)).1
      exact absurd h2 (Nat.not_le.mpr ha)

/-- After an allocation, the high segment (the freshly allocated cells)
references only high addresses. -/
theorem highOK_alloc (h : Heap) (j : Json) : HighOK (allocJ j h).2 (nextAddr h) := by
  obtain ⟨e, he, hent⟩ := (allocJ_spec j h).1
  intro a o hl ha
  rw [he, lookupH_append] at hl
  cases hl0 : lookupH h a with
  | some o0 =>
      have h2 : a < nextAddr h := mem_lt_nextAddr (lookupH_mem hl0)
      exact absurd ha (Nat.not_le.mpr h2)
  | none =>
      rw [hl0] at hl
      exact (hent (a, o) (lookupH_mem hl)).2

/-- Reachability from a value referencing only high addresses stays in the high
segment when the high segment is closed. -/
theorem reach_high {h : Heap} {n : Nat} (hok : HighOK h n) :
    ∀ {v : HVal} {a : Addr}, Reach h v a → RefsHigh n v → n ≤ a := by
  intro v a hre
  induction hre with
  | here b => intro hv; exact hv b rfl
  | through b o k w c hl hm hr ih =>
      intro hv
      exact ih (hok b o hl (hv b rfl) (k, w) hm)

/-- Central frame lemma: a transition's clone-then-mutate step cannot change
what the original state value reads out to, for any mutator that touches
memory only through its argument. -/
theorem readout_after_mut (fuel : Nat) (m : HMut) (args : List HVal) (h : Heap)
    (v : HVal) (j : Json) (hm : MutFrame m) (hwf : wfHeap h = true)
    (hro : readout fuel h v = some j) :
    readout fuel ((m (allocJ j h).2 (allocJ j h).1 args).1) v = some j := by
  obtain ⟨⟨e, he, hent⟩, hhigh⟩ := allocJ_spec j h
  have hag1 : ∀ a, (lookupH h a).isSome → lookupH (allocJ j h).2 a = lookupH h a := by
    intro a ha
    rw [he, lookupH_append]
    cases hl : lookupH h a with
    | none => rw [hl] at ha; cases ha
    | some o => rfl
  have hro1 : readout fuel (allocJ j h).2 v = some j :=
    readout_agree fuel h _ hag1 v j hro
  have hrv : RefsLow (nextAddr h) v := by
    intro a hva
    subst hva
    cases fuel with
    | zero => simp [readout] at hro
    | succ f =>
        simp only [readout] at hro
        cases hl : lookupH h a with
        | none => rw [hl] at hro; exact Option.noConfusion hro
        | some o => exact mem_lt_nextAddr (lookupH_mem hl)
  have hag2 : ∀ a, a < nextAddr h → (lookupH (allocJ j h).2 a).isSome →
      lookupH (m (allocJ j h).2 (allocJ j h).1 args).1 a = lookupH (allocJ j h).2 a := by
    intro a ha hdef
    refine hm (allocJ j h).2 (allocJ j h).1 args a hdef ?_
    intro hre
    exact absurd (reach_high (highOK_alloc h j) hre hhigh) (by omega)
  exact readout_framed fuel (nextAddr h) (allocJ j h).2 _ hag2
    (lowOK_alloc h j hwf) v j hrv hro1

/-- Updating one cell leaves every other address unchanged. -/
theorem lookupH_updateH_ne : ∀ (h : Heap) (b : Addr) (o : HObj) (a : Addr), a ≠ b →
    lookupH (updateH h b o) a = lookupH h a := by
  intro h b o
  induction h with
  | nil => intro a hne; rfl
  | cons p rest ih =>
      obtain ⟨x, y⟩ := p
      intro a hne
      by_cases hxb : x = b
      · subst hxb
        simp only [updateH, List.map_cons, if_pos rfl]
        simp only [lookupH, if_neg hne]
        exact ih a hne
      · have hxb2 : ((x, y).1 = b) = False := by simp [hxb]
        simp only [updateH, List.map_cons, hxb2, if_false]
        by_cases hax : a = x
        · simp only [lookupH, if_pos hax]
        · simp only [lookupH, if_neg hax]
          exact ih a hne

/-- The key of the first matching handler determines the reducer's behavior:
the loop with any handler list equals the loop with just that handler. -/
theorem reduceH_first_match : ∀ (handlers : List (Str × HMut)) (fuel : Nat)
    (h : Heap) (v : HVal) (a : ActionMsgH) (m : HMut),
    lookupA handlers a.type = some m →
    reduceH fuel handlers h v a = reduceH fuel [(a.type, m)] h v a := by
  intro handlers
  induction handlers with
  | nil => intro fuel h v a m hl; simp [lookupA] at hl
  | cons p rest ih =>
      obtain ⟨name, m0⟩ := p
      intro fuel h v a m hl
      simp only [lookupA] at hl
      by_cases hname : a.type = name
      · rw [if_pos hname] at hl
        obtain rfl : m0 = m := Option.some.inj hl
        simp [reduceH, hname]
      · rw [if_neg hname] at hl
        have hstep : reduceH fuel ((name, m0) :: rest) h v a = reduceH fuel rest h v a := by
          simp only [reduceH, if_neg hname]
        rw [hstep]
        exact ih fuel h v a m hl

/-- The heap after the handler-result match is the handler's heap, whatever
the handler returned. -/
theorem matchStep_fst (x : Heap × Except Str (Option HVal)) (c : HVal) :
    (match x with
     | (h2, .error e) => (h2, Except.error e)
     | (h2, .ok ret) => (h2, Except.ok (jsOrH ret c))).1 = x.1 := by
  rcases x with ⟨h2, r⟩
  cases r <;> rfl

/-- C6: the transition function never mutates the current state value it was
given: whatever the mutators do to their detached deep copies, the content the
original value reads out to is untouched after any dispatch — matched or not —
for every mutator that touches memory only through its argument. -/
theorem reduceH_never_mutates_current_value (fuel : Nat)
    (handlers : List (Str × HMut)) (h : Heap) (v : HVal) (a : ActionMsgH) (j : Json)
    (hm : ∀ p ∈ handlers, MutFrame p.2) (hwf : wfHeap h = true)
    (hro : readout fuel h v = some j) :
    readout fuel (reduceH fuel handlers h v a).1 v = some j := by
  induction handlers with
  | nil => simp only [reduceH]; exact hro
  | cons p rest ih =>
      obtain ⟨name, m⟩ := p
      by_cases hname : a.type = name
      · rcases halloc : allocJ j h with ⟨c, h1⟩
        have hdc : deepCloneH fuel h v = some (c, h1) := by
          simp [deepCloneH, hro, halloc]
        have h0 := readout_after_mut fuel m a.args h v j
          (hm (name, m) (List.mem_cons_self _ _)) hwf hro
        rw [halloc] at h0
        have h0b : readout fuel ((m h1 c a.args).1) v = some j := h0
        have hgoal : (reduceH fuel ((name, m) :: rest) h v a).1 = (m h1 c a.args).1 := by
          simp only [reduceH, if_pos hname, hdc]
          exact matchStep_fst (m h1 c a.args) c
        rw [hgoal]
        exact h0b
      · simp only [reduceH, if_neg hname]
        exact ih (fun q hq => hm q (List.mem_cons_of_mem _ hq))

/-- C7: a mutator that throws during a matched transition propagates its
exception synchronously through submit, and the container's value is left
exactly unchanged: the same value stays installed and its content reads out as
before, the partial mutation having happened only on the discarded detached
copy. -/
theorem submitH_mutator_throw_atomic (fuel : Nat) (handlers : List (Str × HMut))
    (cont : ContainerH) (a : ActionMsgH) (m : HMut) (c : HVal) (h1 h2 : Heap)
    (e : Str) (j : Json)
    (hfind : lookupA handlers a.type = some m) (hm : MutFrame m)
    (hwf : wfHeap cont.heap = true)
    (hro : readout fuel cont.heap cont.val = some j)
    (hc : allocJ j cont.heap = (c, h1))
    (hthrow : m h1 c a.args = (h2, .error e)) :
    submitH fuel handlers cont a = (⟨h2, cont.val⟩, .error e) ∧
      readout fuel h2 cont.val = some j := by
  have hdc : deepCloneH fuel cont.heap cont.val = some (c, h1) := by
    simp [deepCloneH, hro, hc]
  have hred : reduceH fuel handlers cont.heap cont.val a = (h2, .error e) := by
    rw [reduceH_first_match handlers fuel cont.heap cont.val a m hfind]
    simp only [reduceH, if_pos rfl, hdc]
    rw [hthrow]
    simp
  constructor
  · simp [submitH, hred]
  · have h0 := readout_after_mut fuel m a.args cont.heap cont.val j hm hwf hro
    rw [hc] at h0
    have h1b : readout fuel ((m h1 c a.args).1) cont.val = some j := h0
    rw [hthrow] at h1b
    exact h1b

theorem incHMut_frame : MutFrame incHMut := by
  intro h c args a hdef hre
  cases c with
  | hnull => rfl
  | hbool b => rfl
  | hnum n => rfl
  | hstr s => rfl
  | href b =>
      by_cases hab : a = b
      · subst hab
        exact absurd (Reach.here a) hre
      · show lookupH (incHMut h (.href b) args).1 a = lookupH h a
        cases hl : lookupH h b with
        | none => simp only [incHMut, hl]
        | some o =>
            cases hf : lookupA o valueKey with
            | none => simp only [incHMut, hl, hf]
            | some w =>
                cases w with
                | hnum n =>
                    simp only [incHMut, hl, hf]
                    exact lookupH_updateH_ne h b _ a hab
                | hnull => simp only [incHMut, hl, hf]
                | hbool b2 => simp only [incHMut, hl, hf]
                | hstr s2 => simp only [incHMut, hl, hf]
                | href a2 => simp only [incHMut, hl, hf]

theorem badIncMut_frame : MutFrame badIncMut := by
  intro h c args a hdef hre
  cases c with
  | hnull => rfl
  | hbool b => rfl
  | hnum n => rfl
  | hstr s => rfl
  | href b =>
      by_cases hab : a = b
      · subst hab
        exact absurd (Reach.here a) hre
      · show lookupH (badIncMut h (.href b) args).1 a = lookupH h a
        cases hl : lookupH h b with
        | none => simp only [badIncMut, hl]
        | some o =>
            simp only [badIncMut, hl]
            exact lookupH_updateH_ne h b _ a hab

/-- Witness for C6: from the state {value: 0} at address 0, a matched `inc`
transition leaves the original object's content reading out as {value: 0},
and two `inc` submissions in sequence give a container value reading
{value: 2}. -/
theorem reduceH_never_mutates_current_value_witness :
    readout 3 (reduceH 3 [(incKey, incHMut)] [(0, [(valueKey, HVal.hnum 0)])]
        (.href 0) ⟨incKey, []⟩).1 (.href 0) = some (.obj [(valueKey, .num 0)]) ∧
      readout 3 (submitH 3 [(incKey, incHMut)]
          ((submitH 3 [(incKey, incHMut)] ⟨[(0, [(valueKey, HVal.hnum 0)])], .href 0⟩
            ⟨incKey, []⟩).1) ⟨incKey, []⟩).1.heap
        (submitH 3 [(incKey, incHMut)]
          ((submitH 3 [(incKey, incHMut)] ⟨[(0, [(valueKey, HVal.hnum 0)])], .href 0⟩
            ⟨incKey, []⟩).1) ⟨incKey, []⟩).1.val = some (.obj [(valueKey, .num 2)]) := by
  constructor
  · exact reduceH_never_mutates_current_value 3 [(incKey, incHMut)]
      [(0, [(valueKey, HVal.hnum 0)])] (.href 0) ⟨incKey, []⟩ (.obj [(valueKey, .num 0)])
      (fun p hp => by rw [List.mem_singleton.mp hp]; exact incHMut_frame)
      (by rfl) (by simp [readout, fieldsMap, lookupH])
  · simp [submitH, reduceH, deepCloneH, readout, fieldsMap, lookupH, lookupA, allocJ,
      allocFields, allocArr, nextAddr, updateH, setKey, incHMut, jsOrH, truthyH]

/-- Witness for C7: a mutator that scribbles on its copy and throws leaves the
container value installed and reading out unchanged, with the exception
surfaced by submit. -/
theorem submitH_mutator_throw_atomic_witness :
    submitH 2 [(boomKey, badIncMut)] ⟨[(0, [(valueKey, HVal.hnum 0)])], .href 0⟩
        ⟨boomKey, []⟩ =
      (⟨[(0, [(valueKey, HVal.hnum 0)]), (1, [(valueKey, HVal.hnum 99)])], .href 0⟩,
        .error ['b','o','o','m']) ∧
      readout 2 [(0, [(valueKey, HVal.hnum 0)]), (1, [(valueKey, HVal.hnum 99)])]
        (.href 0) = some (.obj [(valueKey, .num 0)]) :=
  submitH_mutator_throw_atomic 2 [(boomKey, badIncMut)]
    ⟨[(0, [(valueKey, HVal.hnum 0)])], .href 0⟩ ⟨boomKey, []⟩ badIncMut (.href 1)
    [(0, [(valueKey, HVal.hnum 0)]), (1, [(valueKey, HVal.hnum 0)])]
    [(0, [(valueKey, HVal.hnum 0)]), (1, [(valueKey, HVal.hnum 99)])]
    ['b','o','o','m'] (.obj [(valueKey, .num 0)])
    (by simp [lookupA]) badIncMut_frame (by rfl)
    (by simp [readout, fieldsMap, lookupH])
    (by simp [allocJ, allocFields, nextAddr])
    (by simp [badIncMut, lookupH, updateH, setKey])

end RN
